import Mathlib

/-!
Verification of the IRC / LLM relay pipeline (`src/main.rs`).

Strings are modelled as `List Char`; machine timestamps (`tokio::time::Instant`)
as `Nat` milliseconds, with `duration_since` as truncated subtraction.
Fallible code (a Rust panic) is modelled with `Option`: `none` is the panic.
-/

namespace IrcRelay

/-- Whether a character is whitespace, modelling Rust `char::is_whitespace`
as used by `str::split_whitespace`. -/
def isWS (c : Char) : Bool := c.isWhitespace

/-- Accumulator-passing worker for `split_whitespace`: `acc` holds the
(reversed) characters of the word currently being read. -/
def split_whitespace_aux : List Char → List Char → List (List Char)
  | [], acc => if acc = [] then [] else [acc.reverse]
  | c :: cs, acc =>
    if isWS c then
      if acc = [] then split_whitespace_aux cs []
      else acc.reverse :: split_whitespace_aux cs []
    else split_whitespace_aux cs (c :: acc)

/-- Rust `str::split_whitespace`: the whitespace-delimited tokens of `text`,
in order, with no empty token. -/
def split_whitespace (text : List Char) : List (List Char) :=
  split_whitespace_aux text []

/-- Fuelled worker for `chunk_exact`; the fuel starts at the list length, which
is enough whenever the chunk size is positive. -/
def chunk_exact_go (n : Nat) : Nat → List Char → List (List Char)
  | _, [] => []
  | 0, _ => []
  | fuel + 1, l => l.take n :: chunk_exact_go n fuel (l.drop n)

/-- Rust `slice::chunks n` (for a positive `n`): successive slices of `n`
elements, the last one possibly shorter. -/
def chunk_exact (n : Nat) (l : List Char) : List (List Char) :=
  chunk_exact_go n l.length l

/-- One iteration of the `for word in text.split_whitespace()` loop body of
`split_into_chunks` in `src/main.rs`. The state is the pair
`(chunks, current_chunk)`; `none` models the `slice::chunks` panic that the
oversized-word branch hits when `max_size = 0`. -/
def splitWord (maxSize : Nat) (chunks : List (List Char)) (current w : List Char) :
    Option (List (List Char) × List Char) :=
  if maxSize < w.length then
    if maxSize = 0 then none
    else
      let chunks1 := if current = [] then chunks else chunks ++ [current]
      some (chunks1 ++ chunk_exact maxSize w, [])
  else
    let p :=
      if maxSize < current.length + w.length + 1 ∧ current ≠ [] then
        (chunks ++ [current], ([] : List Char))
      else (chunks, current)
    some (p.1, if p.2 = [] then w else p.2 ++ ' ' :: w)

/-- The whole word loop of `split_into_chunks`, folded over the token list. -/
def splitFold (maxSize : Nat) : List (List Char) → List (List Char) × List Char →
    Option (List (List Char) × List Char)
  | [], st => some st
  | w :: ws, st =>
    match splitWord maxSize st.1 st.2 w with
    | none => none
    | some st1 => splitFold maxSize ws st1

/-- Rust `split_into_chunks(text, max_size)` from `src/main.rs`: tokenize on
whitespace, greedily pack tokens into space-separated chunks of at most
`max_size` characters, splitting an oversized token into `max_size`-character
slices. `none` models the panic reached when `max_size = 0` on a text with a
token. -/
def split_into_chunks (text : List Char) (maxSize : Nat) : Option (List (List Char)) :=
  match splitFold maxSize (split_whitespace text) ([], []) with
  | none => none
  | some st => some (if st.2 = [] then st.1 else st.1 ++ [st.2])

/-- Rust `Vec::join(" ")` on a list of strings, also used to model rejoining
chunks with single spaces. -/
def joinSpace : List (List Char) → List Char
  | [] => []
  | [c] => c
  | c :: cs => c ++ ' ' :: joinSpace cs

/-- The role tag attached to a completion-request turn, modelling the
`mini_openai::ROLE_ASSISTANT` / `ROLE_USER` string constants. -/
inductive Role where
  | user
  | assistant
deriving DecidableEq, Repr

/-- One turn of a completion request (`mini_openai::Message`). -/
structure Msg where
  content : List Char
  role : Role
deriving DecidableEq, Repr

/-- One choice of a completion response; `content` models
`choice.message.content`. -/
structure Choice where
  content : List Char
deriving DecidableEq, Repr

/-- A completion response (`response.choices`). -/
structure Response where
  choices : List Choice
deriving DecidableEq, Repr

/-- The history entry `format!("{} - {}", author, text)` pushed in
`src/main.rs`. -/
def formatEntry (author text : List Char) : List Char :=
  author ++ ' ' :: '-' :: ' ' :: text

/-- The request-building loop of the processor task: one `Msg` per history
entry, whose role is `assistant` exactly when `sender == nickname` — note that
the source compares the *current unit's sender*, not the entry's author. -/
def buildMessages (history : List (List Char)) (sender nickname : List Char) : List Msg :=
  history.map fun m =>
    { content := m
      role := if sender = nickname then Role.assistant else Role.user }

/-- The backtick character (U+0060), stripped from replies. -/
def btChar : Char := Char.ofNat 96

/-- Reply normalization: `.replace('\n', " ")` then removal of every backtick
(`.replace(btChar, "")`). -/
def normalizeReply (l : List Char) : List Char :=
  (l.map fun c => if c = '\n' then ' ' else c).filter fun c => c != btChar

/-- The fallback reply used when the response has no choices. -/
def sentinelReply : List Char := String.toList "No response from OpenAI."

/-- Reply extraction from a response: first choice's content, or the sentinel
when `choices` is empty, then normalized. -/
def extractReply (resp : Response) : List Char :=
  normalizeReply ((resp.choices.head?.map Choice.content).getD sentinelReply)

/-- The IRC chunk bound used by the processor (`split_into_chunks(&reply, 500)`). -/
def IRC_CHUNK : Nat := 500

/-- How the processing of one flushed unit ended: suppressed by the cold-start
check, abandoned on backend failure, or replied with the given chunks sent. -/
inductive Outcome where
  | suppressed
  | backendFailed
  | replied (chunks : List (List Char))
deriving DecidableEq, Repr

/-- Processing of one flushed unit `(sender, text)` by the processor task of
`src/main.rs`: push the user turn, build the request over the whole snapshot,
apply cold-start suppression, call the backend (modelled as a function from
the built messages to an optional response, `none` being failure), extract and
normalize the reply, chunk it, and push the reply turn. Returns the new
history together with the outcome. -/
def processUnit (leader : Bool) (nickname : List Char)
    (backend : List Msg → Option Response)
    (history : List (List Char)) (sender text : List Char) :
    List (List Char) × Outcome :=
  let history1 := history ++ [formatEntry sender text]
  let messages := buildMessages history1 sender nickname
  if leader = false ∧ messages.length < 2 then
    (history1, Outcome.suppressed)
  else
    match backend messages with
    | none => (history1, Outcome.backendFailed)
    | some resp =>
      let reply := extractReply resp
      (history1 ++ [formatEntry nickname reply],
       Outcome.replied ((split_into_chunks reply IRC_CHUNK).getD []))

/-- The processor's `while let Some((sender, msg)) = buffer_rx.recv()` loop
over a finite queue of units: every unit is processed in order regardless of
the previous unit's outcome (`continue` on suppression or failure). -/
def processAll (leader : Bool) (nickname : List Char)
    (backend : List Msg → Option Response) :
    List (List Char × List Char) → List (List Char) → List (List Char)
  | [], history => history
  | (sender, text) :: rest, history =>
    processAll leader nickname backend rest
      (processUnit leader nickname backend history sender text).1

/-- A sender's pending aggregate: the buffered messages and the timestamp of
the last activity, in ms (`(Vec<String>, Instant)` in `src/main.rs`). -/
structure Pending where
  messages : List (List Char)
  lastActivity : Nat
deriving DecidableEq, Repr

/-- The debounce window: `Duration::from_secs(1)`, in ms. -/
def TTL_MS : Nat := 1000

/-- One entry's treatment in the flush-scheduler scan: if the idle time
reached the TTL, clear its messages and emit `(sender, msgs.join(" "))`;
otherwise leave it unchanged and emit nothing. -/
def scanEntry (now ttl : Nat) (e : List Char × Pending) :
    (List Char × Pending) × Option (List Char × List Char) :=
  if ttl ≤ now - e.2.lastActivity then
    ((e.1, { messages := [], lastActivity := e.2.lastActivity }),
     some (e.1, joinSpace e.2.messages))
  else (e, none)

/-- One tick of the flush scheduler of `src/main.rs`: scan every entry as in
`scanEntry`, then `retain` only the entries with non-empty messages. Returns
the new table and the flushed units, in table order. -/
def tickScan (now ttl : Nat) (table : List (List Char × Pending)) :
    List (List Char × Pending) × List (List Char × List Char) :=
  (((table.map (scanEntry now ttl)).map Prod.fst).filter (fun e => e.2.messages != []),
   (table.map (scanEntry now ttl)).filterMap Prod.snd)

/-- The inbound listener's buffer update (`entry(sender).or_insert(...)`,
push, refresh timestamp), on the association-list model of the `HashMap`. -/
def recordMsg : List (List Char × Pending) → List Char → List Char → Nat →
    List (List Char × Pending)
  | [], sender, msg, now => [(sender, { messages := [msg], lastActivity := now })]
  | e :: rest, sender, msg, now =>
    if e.1 = sender then
      (e.1, { messages := e.2.messages ++ [msg], lastActivity := now }) :: rest
    else e :: recordMsg rest sender msg now

theorem split_whitespace_aux_append_space (b : List Char) :
    ∀ (a acc : List Char),
      split_whitespace_aux (a ++ ' ' :: b) acc =
        split_whitespace_aux a acc ++ split_whitespace_aux b [] := by
  intro a
  induction a with
  | nil =>
    intro acc
    by_cases hacc : acc = [] <;>
      simp [split_whitespace_aux, (show isWS ' ' = true by decide), hacc]
  | cons c cs ih =>
    intro acc
    by_cases hc : isWS c = true
    · by_cases hacc : acc = [] <;>
        simp [split_whitespace_aux, hc, hacc, ih]
    · simp [split_whitespace_aux, hc, ih]

theorem split_whitespace_append_space (a b : List Char) :
    split_whitespace (a ++ ' ' :: b) = split_whitespace a ++ split_whitespace b :=
  split_whitespace_aux_append_space b a []

theorem split_whitespace_aux_no_ws :
    ∀ (w acc : List Char), (∀ c ∈ w, isWS c = false) →
      split_whitespace_aux w acc =
        if acc.reverse ++ w = [] then [] else [acc.reverse ++ w] := by
  intro w
  induction w with
  | nil =>
    intro acc _
    by_cases hacc : acc = [] <;> simp [split_whitespace_aux, hacc]
  | cons c cs ih =>
    intro acc hw
    have hc : isWS c = false := hw c (List.mem_cons_self c cs)
    rw [split_whitespace_aux]
    simp only [hc, Bool.false_eq_true, if_false]
    rw [ih (c :: acc) fun d hd => hw d (List.mem_cons_of_mem c hd)]
    simp

theorem split_whitespace_single (w : List Char) (hne : w ≠ [])
    (hw : ∀ c ∈ w, isWS c = false) : split_whitespace w = [w] := by
  rw [split_whitespace, split_whitespace_aux_no_ws w [] hw]
  simp [hne]

theorem split_whitespace_aux_mem :
    ∀ (l acc : List Char), (∀ c ∈ acc, isWS c = false) →
      ∀ w ∈ split_whitespace_aux l acc, w ≠ [] ∧ ∀ c ∈ w, isWS c = false := by
  intro l
  induction l with
  | nil =>
    intro acc hacc w hwmem
    by_cases h : acc = []
    · simp [split_whitespace_aux, h] at hwmem
    · simp [split_whitespace_aux, h] at hwmem
      subst hwmem
      refine ⟨by simpa using h, fun c hc => hacc c (by simpa using hc)⟩
  | cons c cs ih =>
    intro acc hacc w hwmem
    by_cases hc : isWS c = true
    · by_cases hacc0 : acc = []
      · rw [split_whitespace_aux] at hwmem
        simp only [hc, if_true, hacc0, if_pos rfl] at hwmem
        exact ih [] (by simp) w hwmem
      · rw [split_whitespace_aux] at hwmem
        simp only [hc, if_true, hacc0, if_neg hacc0] at hwmem
        rcases List.mem_cons.mp hwmem with rfl | h2
        · refine ⟨by simpa using hacc0, fun d hd => hacc d (by simpa using hd)⟩
        · exact ih [] (by simp) w h2
    · rw [split_whitespace_aux] at hwmem
      simp only [hc, if_false] at hwmem
      refine ih (c :: acc) ?_ w hwmem
      intro d hd
      rcases List.mem_cons.mp hd with rfl | hd2
      · simpa using hc
      · exact hacc d hd2

theorem split_whitespace_mem (text : List Char) :
    ∀ w ∈ split_whitespace text, w ≠ [] ∧ ∀ c ∈ w, isWS c = false :=
  split_whitespace_aux_mem text [] (by simp)

theorem split_whitespace_aux_ne_nil :
    ∀ (l acc : List Char), (acc = [] → ∃ c ∈ l, isWS c = false) →
      split_whitespace_aux l acc ≠ [] := by
  intro l
  induction l with
  | nil =>
    intro acc h
    have hacc : acc ≠ [] := by
      intro hh
      rcases h hh with ⟨c, hc, _⟩
      simp at hc
    simp [split_whitespace_aux, hacc]
  | cons c cs ih =>
    intro acc h
    by_cases hc : isWS c = true
    · by_cases hacc : acc = []
      · rw [split_whitespace_aux]
        simp only [hc, if_true, hacc, if_pos rfl]
        apply ih
        intro _
        rcases h hacc with ⟨d, hd, hdw⟩
        rcases List.mem_cons.mp hd with rfl | hd2
        · rw [hc] at hdw
          cases hdw
        · exact ⟨d, hd2, hdw⟩
      · rw [split_whitespace_aux]
        simp [hc, hacc]
    · rw [split_whitespace_aux]
      simp only [hc, if_false]
      apply ih
      intro hfalse
      cases hfalse

theorem split_whitespace_ne_nil (text : List Char) (c : Char)
    (hc : c ∈ text) (hw : isWS c = false) : split_whitespace text ≠ [] :=
  split_whitespace_aux_ne_nil text [] fun _ => ⟨c, hc, hw⟩

theorem joinSpace_tokens :
    ∀ chunks : List (List Char),
      split_whitespace (joinSpace chunks) = (chunks.map split_whitespace).flatten := by
  intro chunks
  induction chunks with
  | nil => simp [joinSpace, split_whitespace, split_whitespace_aux]
  | cons c cs ih =>
    cases cs with
    | nil => simp [joinSpace]
    | cons c2 cs2 =>
      rw [show joinSpace (c :: c2 :: cs2) = c ++ ' ' :: joinSpace (c2 :: cs2) from rfl,
        split_whitespace_append_space, ih]
      simp

theorem chunk_exact_go_mem (n : Nat) (hn : 0 < n) :
    ∀ (fuel : Nat) (l : List Char), ∀ c ∈ chunk_exact_go n fuel l,
      c ≠ [] ∧ c.length ≤ n := by
  intro fuel
  induction fuel with
  | zero =>
    intro l c hc
    cases l <;> simp [chunk_exact_go] at hc
  | succ fuel ih =>
    intro l c hc
    cases l with
    | nil => simp [chunk_exact_go] at hc
    | cons x xs =>
      have hceq : chunk_exact_go n (fuel + 1) (x :: xs) =
          (x :: xs).take n :: chunk_exact_go n fuel ((x :: xs).drop n) := rfl
      rw [hceq] at hc
      rcases List.mem_cons.mp hc with rfl | h2
      · refine ⟨?_, by simp [List.length_take]⟩
        cases n with
        | zero => omega
        | succ m => simp [List.take_succ_cons]
      · exact ih _ c h2

theorem chunk_exact_mem (n : Nat) (hn : 0 < n) (l : List Char) :
    ∀ c ∈ chunk_exact n l, c ≠ [] ∧ c.length ≤ n :=
  chunk_exact_go_mem n hn l.length l

theorem splitWord_panic (chunks : List (List Char)) (current w : List Char)
    (h : 0 < w.length) : splitWord 0 chunks current w = none := by
  rw [splitWord, if_pos h, if_pos rfl]

theorem splitWord_oversized (maxSize : Nat) (chunks : List (List Char)) (current w : List Char)
    (h1 : maxSize < w.length) (h2 : ¬ maxSize = 0) :
    splitWord maxSize chunks current w =
      some ((if current = [] then chunks else chunks ++ [current]) ++ chunk_exact maxSize w,
        []) := by
  rw [splitWord, if_pos h1, if_neg h2]

theorem splitWord_flush (maxSize : Nat) (chunks : List (List Char)) (current w : List Char)
    (h1 : ¬ maxSize < w.length) (h2 : maxSize < current.length + w.length + 1)
    (h3 : current ≠ []) :
    splitWord maxSize chunks current w = some (chunks ++ [current], w) := by
  rw [splitWord, if_neg h1, if_pos (And.intro h2 h3)]
  rfl

theorem splitWord_fresh (maxSize : Nat) (chunks : List (List Char)) (current w : List Char)
    (h1 : ¬ maxSize < w.length) (h2 : current = []) :
    splitWord maxSize chunks current w = some (chunks, w) := by
  subst h2
  rw [splitWord, if_neg h1, if_neg (by simp)]
  rfl

theorem splitWord_fits (maxSize : Nat) (chunks : List (List Char)) (current w : List Char)
    (h1 : ¬ maxSize < w.length) (h2 : ¬ maxSize < current.length + w.length + 1)
    (h3 : current ≠ []) :
    splitWord maxSize chunks current w = some (chunks, current ++ ' ' :: w) := by
  rw [splitWord, if_neg h1, if_neg (by exact fun h => h2 h.1)]
  simp [h3]

theorem splitFold_cons_some (maxSize : Nat) (w : List Char) (ws : List (List Char))
    (st st1 : List (List Char) × List Char)
    (h : splitWord maxSize st.1 st.2 w = some st1) :
    splitFold maxSize (w :: ws) st = splitFold maxSize ws st1 := by
  rw [splitFold, h]

theorem splitFold_cons_none (maxSize : Nat) (w : List Char) (ws : List (List Char))
    (st : List (List Char) × List Char)
    (h : splitWord maxSize st.1 st.2 w = none) :
    splitFold maxSize (w :: ws) st = none := by
  rw [splitFold, h]

theorem splitFold_bounds (maxSize : Nat) (hpos : 0 < maxSize) :
    ∀ (ws chunks : List (List Char)) (current : List Char),
      (∀ c ∈ chunks, c ≠ [] ∧ c.length ≤ maxSize) → current.length ≤ maxSize →
      ∃ st, splitFold maxSize ws (chunks, current) = some st ∧
        (∀ c ∈ st.1, c ≠ [] ∧ c.length ≤ maxSize) ∧ st.2.length ≤ maxSize := by
  intro ws
  induction ws with
  | nil =>
    intro chunks current hch hcur
    exact ⟨(chunks, current), rfl, hch, hcur⟩
  | cons w ws ih =>
    intro chunks current hch hcur
    by_cases hover : maxSize < w.length
    · rw [splitFold_cons_some maxSize w ws (chunks, current) _
        (splitWord_oversized maxSize chunks current w hover (by omega))]
      apply ih
      · intro c hc
        rcases List.mem_append.mp hc with h1 | h2
        · by_cases hc0 : current = []
          · rw [if_pos hc0] at h1
            exact hch c h1
          · rw [if_neg hc0] at h1
            rcases List.mem_append.mp h1 with h3 | h4
            · exact hch c h3
            · rcases List.mem_singleton.mp h4 with rfl
              exact ⟨hc0, hcur⟩
        · exact chunk_exact_mem maxSize hpos w c h2
      · simp
    · by_cases hc0 : current = []
      · rw [splitFold_cons_some maxSize w ws (chunks, current) _
          (splitWord_fresh maxSize chunks current w hover hc0)]
        apply ih _ _ hch
        omega
      · by_cases hflush : maxSize < current.length + w.length + 1
        · rw [splitFold_cons_some maxSize w ws (chunks, current) _
            (splitWord_flush maxSize chunks current w hover hflush hc0)]
          apply ih
          · intro c hc
            rcases List.mem_append.mp hc with h1 | h2
            · exact hch c h1
            · rcases List.mem_singleton.mp h2 with rfl
              exact ⟨hc0, hcur⟩
          · omega
        · rw [splitFold_cons_some maxSize w ws (chunks, current) _
            (splitWord_fits maxSize chunks current w hover hflush hc0)]
          apply ih _ _ hch
          simp only [List.length_append, List.length_cons]
          omega

theorem splitFold_tokens (maxSize : Nat) :
    ∀ (ws chunks : List (List Char)) (current : List Char),
      (∀ w ∈ ws, w ≠ [] ∧ (∀ c ∈ w, isWS c = false) ∧ w.length ≤ maxSize) →
      ∃ st, splitFold maxSize ws (chunks, current) = some st ∧
        (st.1.map split_whitespace).flatten ++ split_whitespace st.2 =
          (chunks.map split_whitespace).flatten ++ split_whitespace current ++ ws := by
  intro ws
  induction ws with
  | nil =>
    intro chunks current _
    exact ⟨(chunks, current), rfl, by simp⟩
  | cons w ws ih =>
    intro chunks current hws
    obtain ⟨hwne, hwns, hwlen⟩ := hws w (List.mem_cons_self w ws)
    have hover : ¬ maxSize < w.length := by omega
    have hwtok : split_whitespace w = [w] := split_whitespace_single w hwne hwns
    have hrest : ∀ v ∈ ws, v ≠ [] ∧ (∀ c ∈ v, isWS c = false) ∧ v.length ≤ maxSize :=
      fun v hv => hws v (List.mem_cons_of_mem w hv)
    by_cases hc0 : current = []
    · rw [splitFold_cons_some maxSize w ws (chunks, current) _
        (splitWord_fresh maxSize chunks current w hover hc0)]
      obtain ⟨st, hst, heq⟩ := ih chunks w hrest
      refine ⟨st, hst, ?_⟩
      rw [heq, hwtok, hc0]
      simp [split_whitespace, split_whitespace_aux]
    · by_cases hflush : maxSize < current.length + w.length + 1
      · rw [splitFold_cons_some maxSize w ws (chunks, current) _
          (splitWord_flush maxSize chunks current w hover hflush hc0)]
        obtain ⟨st, hst, heq⟩ := ih (chunks ++ [current]) w hrest
        refine ⟨st, hst, ?_⟩
        rw [heq, hwtok]
        simp
      · rw [splitFold_cons_some maxSize w ws (chunks, current) _
          (splitWord_fits maxSize chunks current w hover hflush hc0)]
        obtain ⟨st, hst, heq⟩ := ih chunks (current ++ ' ' :: w) hrest
        refine ⟨st, hst, ?_⟩
        rw [heq, split_whitespace_append_space, hwtok]
        simp

theorem split_whitespace_nil : split_whitespace [] = [] := rfl

/-- C2: for every input text and every `max_size > 0`, `split_into_chunks`
succeeds (no panic) and returns a sequence in which no chunk is empty and
every chunk's length is at most `max_size` characters. -/
theorem claim_C2_chunk_bounds (text : List Char) (maxSize : Nat) (h : 0 < maxSize) :
    (split_into_chunks text maxSize).isSome = true ∧
      ∀ c ∈ (split_into_chunks text maxSize).getD [], c ≠ [] ∧ c.length ≤ maxSize := by
  obtain ⟨st, hst, hch, hcur⟩ :=
    splitFold_bounds maxSize h (split_whitespace text) [] [] (by simp) (by simp)
  have hval : split_into_chunks text maxSize =
      some (if st.2 = [] then st.1 else st.1 ++ [st.2]) := by
    rw [split_into_chunks, hst]
  rw [hval]
  refine ⟨rfl, ?_⟩
  intro c hc
  simp only [Option.getD_some] at hc
  by_cases h2 : st.2 = []
  · rw [if_pos h2] at hc
    exact hch c hc
  · rw [if_neg h2] at hc
    rcases List.mem_append.mp hc with h3 | h4
    · exact hch c h3
    · rcases List.mem_singleton.mp h4 with rfl
      exact ⟨h2, hcur⟩

theorem claim_C2_chunk_bounds_witness :
    (split_into_chunks (String.toList "hello world again") 7).isSome = true ∧
      ∀ c ∈ (split_into_chunks (String.toList "hello world again") 7).getD [],
        c ≠ [] ∧ c.length ≤ 7 :=
  claim_C2_chunk_bounds (String.toList "hello world again") 7 (by decide)

/-- C3 counterexample: at `text = "aaa"`, `max_size = 2` (a positive bound),
the oversized token is sliced into `["aa", "a"]`; rejoining with single spaces
and collapsing whitespace yields the token sequence `["aa", "a"]`, not the
original token sequence `["aaa"]`. -/
theorem claim_C3_counterexample :
    0 < 2 ∧
      split_into_chunks (String.toList "aaa") 2 =
        some [String.toList "aa", String.toList "a"] ∧
      split_whitespace (joinSpace [String.toList "aa", String.toList "a"]) ≠
        split_whitespace (String.toList "aaa") :=
  ⟨by decide, by decide, by decide⟩

/-- C3 (amended): for every input text and `max_size` such that every
whitespace-delimited token of the text has length at most `max_size`, joining
the chunks returned by `split_into_chunks` with single spaces and then
collapsing whitespace reproduces the whitespace-normalized original text. -/
theorem claim_C3_amended_join_tokens (text : List Char) (maxSize : Nat)
    (h : ∀ w ∈ split_whitespace text, w.length ≤ maxSize) :
    (split_into_chunks text maxSize).isSome = true ∧
      split_whitespace (joinSpace ((split_into_chunks text maxSize).getD [])) =
        split_whitespace text := by
  obtain ⟨st, hst, heq⟩ := splitFold_tokens maxSize (split_whitespace text) [] []
    (fun w hw =>
      ⟨(split_whitespace_mem text w hw).1, (split_whitespace_mem text w hw).2, h w hw⟩)
  have hval : split_into_chunks text maxSize =
      some (if st.2 = [] then st.1 else st.1 ++ [st.2]) := by
    rw [split_into_chunks, hst]
  rw [hval]
  refine ⟨rfl, ?_⟩
  simp only [Option.getD_some]
  rw [joinSpace_tokens]
  simp only [List.map_nil, List.flatten_nil, split_whitespace_nil, List.nil_append,
    List.append_nil] at heq
  by_cases h2 : st.2 = []
  · rw [if_pos h2]
    rw [h2, split_whitespace_nil, List.append_nil] at heq
    exact heq
  · rw [if_neg h2, List.map_append, List.flatten_append]
    simpa using heq

theorem claim_C3_amended_join_tokens_witness :
    (split_into_chunks (String.toList "ab cd e") 2).isSome = true ∧
      split_whitespace (joinSpace ((split_into_chunks (String.toList "ab cd e") 2).getD [])) =
        split_whitespace (String.toList "ab cd e") :=
  claim_C3_amended_join_tokens (String.toList "ab cd e") 2 (by decide)

/-- C9: with `max_size = 0` and at least one non-whitespace character in the
text, `split_into_chunks` is not total: the oversized-word branch calls
`slice::chunks` with chunk size 0, which panics (modelled as `none`); for
every positive `max_size` the function is defined on all texts, so the spec's
precondition `max_size > 0` is exactly what totality needs. -/
theorem claim_C9_zero_max_size_panics (text : List Char) (c : Char)
    (hc : c ∈ text) (hw : isWS c = false) :
    split_into_chunks text 0 = none ∧
      ∀ n, 0 < n → (split_into_chunks text n).isSome = true := by
  constructor
  · have hne : split_whitespace text ≠ [] := split_whitespace_ne_nil text c hc hw
    obtain ⟨w, ws, hws⟩ := List.exists_cons_of_ne_nil hne
    have hwmem : w ∈ split_whitespace text := by
      rw [hws]
      exact List.mem_cons_self w ws
    have hwne : w ≠ [] := (split_whitespace_mem text w hwmem).1
    have hlen : 0 < w.length := List.length_pos.mpr hwne
    rw [split_into_chunks, hws,
      splitFold_cons_none 0 w ws ([], []) (splitWord_panic [] [] w hlen)]
  · intro n hn
    obtain ⟨st, hst, _⟩ :=
      splitFold_bounds n hn (split_whitespace text) [] [] (by simp) (by simp)
    rw [split_into_chunks, hst]
    rfl

theorem claim_C9_zero_max_size_panics_witness :
    split_into_chunks (String.toList "a") 0 = none ∧
      ∀ n, 0 < n → (split_into_chunks (String.toList "a") n).isSome = true :=
  claim_C9_zero_max_size_panics (String.toList "a") 'a' (by decide) (by decide)

theorem buildMessages_length (history : List (List Char)) (sender nickname : List Char) :
    (buildMessages history sender nickname).length = history.length := by
  simp [buildMessages]

theorem processUnit_suppressed (leader : Bool) (nickname : List Char)
    (b : List Msg → Option Response) (hist : List (List Char)) (sender text : List Char)
    (h : leader = false ∧ (hist ++ [formatEntry sender text]).length < 2) :
    processUnit leader nickname b hist sender text =
      (hist ++ [formatEntry sender text], Outcome.suppressed) := by
  simp only [processUnit]
  rw [if_pos (And.intro h.1 (by rw [buildMessages_length]; exact h.2))]

theorem processUnit_backend_none (leader : Bool) (nickname : List Char)
    (b : List Msg → Option Response) (hist : List (List Char)) (sender text : List Char)
    (hsup : ¬ (leader = false ∧ (hist ++ [formatEntry sender text]).length < 2))
    (hb : b (buildMessages (hist ++ [formatEntry sender text]) sender nickname) = none) :
    processUnit leader nickname b hist sender text =
      (hist ++ [formatEntry sender text], Outcome.backendFailed) := by
  have hsup2 : ¬ (leader = false ∧
      (buildMessages (hist ++ [formatEntry sender text]) sender nickname).length < 2) := by
    rw [buildMessages_length]
    exact hsup
  simp only [processUnit]
  rw [if_neg hsup2, hb]

theorem processUnit_backend_some (leader : Bool) (nickname : List Char)
    (b : List Msg → Option Response) (hist : List (List Char)) (sender text : List Char)
    (r : Response)
    (hsup : ¬ (leader = false ∧ (hist ++ [formatEntry sender text]).length < 2))
    (hb : b (buildMessages (hist ++ [formatEntry sender text]) sender nickname) = some r) :
    processUnit leader nickname b hist sender text =
      ((hist ++ [formatEntry sender text]) ++ [formatEntry nickname (extractReply r)],
       Outcome.replied ((split_into_chunks (extractReply r) IRC_CHUNK).getD [])) := by
  have hsup2 : ¬ (leader = false ∧
      (buildMessages (hist ++ [formatEntry sender text]) sender nickname).length < 2) := by
    rw [buildMessages_length]
    exact hsup
  simp only [processUnit]
  rw [if_neg hsup2, hb]

/-- C1 (code bug): the request-building loop computes every turn's role from
the current unit's sender, not from the iterated entry's author. With own
nickname `bot` and a flushed unit from `alice`, the history entry authored by
`bot` itself is sent with role `user` (all turns get the same role), contrary
to the per-entry role assignment the spec states. -/
theorem claim_C1_role_ignores_entry_author :
    buildMessages
        [formatEntry (String.toList "alice") (String.toList "hi"),
         formatEntry (String.toList "bot") (String.toList "hello"),
         formatEntry (String.toList "alice") (String.toList "how are you")]
        (String.toList "alice") (String.toList "bot") =
      [{ content := formatEntry (String.toList "alice") (String.toList "hi"),
         role := Role.user },
       { content := formatEntry (String.toList "bot") (String.toList "hello"),
         role := Role.user },
       { content := formatEntry (String.toList "alice") (String.toList "how are you"),
         role := Role.user }] := by
  decide

/-- C4: when the leader flag is false and the snapshot length after appending
the unit's entry is below 2, processing stops at the suppression check — the
result does not depend on the backend at all and only the user turn was
appended; with the leader flag true the outcome is never `suppressed`, so the
backend is consulted even for the first unit. -/
theorem claim_C4_cold_start_suppression (nickname sender text : List Char)
    (hist : List (List Char)) (b b1 : List Msg → Option Response)
    (h : (hist ++ [formatEntry sender text]).length < 2) :
    processUnit false nickname b hist sender text =
        (hist ++ [formatEntry sender text], Outcome.suppressed) ∧
      processUnit false nickname b hist sender text =
        processUnit false nickname b1 hist sender text ∧
      (processUnit true nickname b hist sender text).2 ≠ Outcome.suppressed := by
  refine ⟨processUnit_suppressed false nickname b hist sender text ⟨rfl, h⟩, ?_, ?_⟩
  · rw [processUnit_suppressed false nickname b hist sender text ⟨rfl, h⟩,
      processUnit_suppressed false nickname b1 hist sender text ⟨rfl, h⟩]
  · have hsup : ¬ ((true : Bool) = false ∧
        (hist ++ [formatEntry sender text]).length < 2) := by simp
    cases hb : b (buildMessages (hist ++ [formatEntry sender text]) sender nickname) with
    | none =>
      rw [processUnit_backend_none true nickname b hist sender text hsup hb]
      simp
    | some r =>
      rw [processUnit_backend_some true nickname b hist sender text r hsup hb]
      simp

theorem claim_C4_cold_start_suppression_witness :
    processUnit false (String.toList "bot") (fun _ => some { choices := [] })
        [] (String.toList "alice") (String.toList "hi") =
        ([] ++ [formatEntry (String.toList "alice") (String.toList "hi")],
         Outcome.suppressed) ∧
      processUnit false (String.toList "bot") (fun _ => some { choices := [] })
        [] (String.toList "alice") (String.toList "hi") =
        processUnit false (String.toList "bot") (fun _ => none)
          [] (String.toList "alice") (String.toList "hi") ∧
      (processUnit true (String.toList "bot") (fun _ => some { choices := [] })
        [] (String.toList "alice") (String.toList "hi")).2 ≠ Outcome.suppressed :=
  claim_C4_cold_start_suppression (String.toList "bot") (String.toList "alice")
    (String.toList "hi") [] (fun _ => some { choices := [] }) (fun _ => none) (by decide)

/-- C5: when the backend call fails, the unit's processing stops there: the
user-turn entry stays in the history, no reply entry is appended, and the
processor loop goes on to the next queued unit with exactly that history. -/
theorem claim_C5_backend_failure_no_rollback (leader : Bool)
    (nickname sender text : List Char) (hist : List (List Char))
    (b : List Msg → Option Response) (rest : List (List Char × List Char))
    (hsup : ¬ (leader = false ∧ (hist ++ [formatEntry sender text]).length < 2))
    (hb : b (buildMessages (hist ++ [formatEntry sender text]) sender nickname) = none) :
    processUnit leader nickname b hist sender text =
        (hist ++ [formatEntry sender text], Outcome.backendFailed) ∧
      processAll leader nickname b ((sender, text) :: rest) hist =
        processAll leader nickname b rest (hist ++ [formatEntry sender text]) := by
  have hmain := processUnit_backend_none leader nickname b hist sender text hsup hb
  refine ⟨hmain, ?_⟩
  rw [processAll, hmain]

theorem claim_C5_backend_failure_no_rollback_witness :
    processUnit true (String.toList "bot") (fun _ => none)
        [] (String.toList "alice") (String.toList "hi") =
        ([] ++ [formatEntry (String.toList "alice") (String.toList "hi")],
         Outcome.backendFailed) ∧
      processAll true (String.toList "bot") (fun _ => none)
          [(String.toList "alice", String.toList "hi")] [] =
        processAll true (String.toList "bot") (fun _ => none) []
          ([] ++ [formatEntry (String.toList "alice") (String.toList "hi")]) :=
  claim_C5_backend_failure_no_rollback true (String.toList "bot") (String.toList "alice")
    (String.toList "hi") [] (fun _ => none) [] (by simp) rfl

/-- C8: the processor consults only the first choice of a successful response
— two responses with the same first choice are processed identically — and
when `choices` is empty the sentinel reply takes its place and flows through
the normal path: normalization, chunking, and the history append of the reply
turn. -/
theorem claim_C8_first_choice_sentinel (leader : Bool)
    (nickname sender text : List Char) (hist : List (List Char))
    (r r1 : Response) (h : r.choices.head? = r1.choices.head?) :
    processUnit leader nickname (fun _ => some r) hist sender text =
        processUnit leader nickname (fun _ => some r1) hist sender text ∧
      (r.choices = [] →
        processUnit true nickname (fun _ => some r) hist sender text =
          ((hist ++ [formatEntry sender text]) ++
              [formatEntry nickname (normalizeReply sentinelReply)],
           Outcome.replied
             ((split_into_chunks (normalizeReply sentinelReply) IRC_CHUNK).getD []))) := by
  have hrep : extractReply r = extractReply r1 := by
    rw [extractReply, extractReply, h]
  constructor
  · by_cases hcond : leader = false ∧ (hist ++ [formatEntry sender text]).length < 2
    · rw [processUnit_suppressed leader nickname _ hist sender text hcond,
        processUnit_suppressed leader nickname _ hist sender text hcond]
    · rw [processUnit_backend_some leader nickname _ hist sender text r hcond rfl,
        processUnit_backend_some leader nickname _ hist sender text r1 hcond rfl, hrep]
  · intro hempty
    have hrep2 : extractReply r = normalizeReply sentinelReply := by
      rw [extractReply, hempty]
      rfl
    rw [processUnit_backend_some true nickname _ hist sender text r (by simp) rfl, hrep2]

theorem claim_C8_first_choice_sentinel_witness :
    processUnit true (String.toList "bot") (fun _ => some { choices := [] })
        [] (String.toList "alice") (String.toList "hi") =
        processUnit true (String.toList "bot")
          (fun _ => some { choices := ([] : List Choice) })
          [] (String.toList "alice") (String.toList "hi") ∧
      (({ choices := [] } : Response).choices = [] →
        processUnit true (String.toList "bot") (fun _ => some { choices := [] })
          [] (String.toList "alice") (String.toList "hi") =
          (([] ++ [formatEntry (String.toList "alice") (String.toList "hi")]) ++
              [formatEntry (String.toList "bot") (normalizeReply sentinelReply)],
           Outcome.replied
             ((split_into_chunks (normalizeReply sentinelReply) IRC_CHUNK).getD []))) :=
  claim_C8_first_choice_sentinel true (String.toList "bot") (String.toList "alice")
    (String.toList "hi") [] { choices := [] } { choices := [] } rfl

/-- C10: a history entry is the single formatted string `author ++ " - " ++
text`; the request turns carry each history entry — author prefix included —
verbatim as content, and a successful unit appends exactly the formatted user
turn and the formatted reply turn. -/
theorem claim_C10_formatted_entries_verbatim (hist : List (List Char))
    (sender text nickname : List Char) (r : Response) :
    formatEntry sender text = sender ++ ' ' :: '-' :: ' ' :: text ∧
      (buildMessages (hist ++ [formatEntry sender text]) sender nickname).map Msg.content =
        hist ++ [formatEntry sender text] ∧
      (processUnit true nickname (fun _ => some r) hist sender text).1 =
        hist ++ [formatEntry sender text, formatEntry nickname (extractReply r)] := by
  refine ⟨rfl, ?_, ?_⟩
  · have hgen : ∀ l : List (List Char),
        (buildMessages l sender nickname).map Msg.content = l := by
      intro l
      induction l with
      | nil => rfl
      | cons e rest ih => simpa [buildMessages] using ih
    exact hgen (hist ++ [formatEntry sender text])
  · rw [processUnit_backend_some true nickname _ hist sender text r (by simp) rfl]
    simp

theorem scanEntry_hit (now ttl : Nat) (e : List Char × Pending)
    (hc : ttl ≤ now - e.2.lastActivity) :
    scanEntry now ttl e =
      ((e.1, { messages := [], lastActivity := e.2.lastActivity }),
       some (e.1, joinSpace e.2.messages)) := by
  rw [scanEntry, if_pos hc]

theorem scanEntry_miss (now ttl : Nat) (e : List Char × Pending)
    (hc : ¬ ttl ≤ now - e.2.lastActivity) :
    scanEntry now ttl e = (e, none) := by
  rw [scanEntry, if_neg hc]

theorem scanEntry_fst_key (now ttl : Nat) (e : List Char × Pending) :
    (scanEntry now ttl e).1.1 = e.1 := by
  by_cases hc : ttl ≤ now - e.2.lastActivity
  · rw [scanEntry_hit now ttl e hc]
  · rw [scanEntry_miss now ttl e hc]

theorem scanEntry_some (now ttl : Nat) (e : List Char × Pending)
    (u : List Char × List Char) (h : (scanEntry now ttl e).2 = some u) :
    u.1 = e.1 ∧ (scanEntry now ttl e).1.2.messages = [] := by
  by_cases hc : ttl ≤ now - e.2.lastActivity
  · rw [scanEntry_hit now ttl e hc] at h ⊢
    obtain rfl := Option.some.inj h
    exact ⟨rfl, rfl⟩
  · rw [scanEntry_miss now ttl e hc] at h
    simp at h

theorem tickScan_flushed (now ttl : Nat) (table : List (List Char × Pending)) :
    (tickScan now ttl table).2 =
      (table.filter fun e => decide (ttl ≤ now - e.2.lastActivity)).map
        fun e => (e.1, joinSpace e.2.messages) := by
  induction table with
  | nil => rfl
  | cons e rest ih =>
    simp only [tickScan] at ih ⊢
    by_cases hc : ttl ≤ now - e.2.lastActivity
    · simp [scanEntry_hit now ttl e hc, hc, ih]
    · simp [scanEntry_miss now ttl e hc, hc, ih]

/-- C7: the units flushed by a scheduler tick are exactly the table entries
whose idle duration `now - last_activity` has reached the 1000 ms TTL, each
combined by joining its buffered messages with single spaces — an entry whose
idle duration is strictly below the TTL is never flushed. -/
theorem claim_C7_ttl_gates_flush (now : Nat) (table : List (List Char × Pending)) :
    (tickScan now TTL_MS table).2 =
      (table.filter fun e => decide (TTL_MS ≤ now - e.2.lastActivity)).map
        fun e => (e.1, joinSpace e.2.messages) :=
  tickScan_flushed now TTL_MS table

/-- C6: after a flush-scheduler tick the table holds no entry with an empty
message list; with the table's keys distinct (as in a `HashMap`), a sender
that was just flushed is no longer in the table, and it reappears — with a
non-empty buffer — only through the inbound `recordMsg` path. -/
theorem claim_C6_flush_removes_entry (now ttl : Nat)
    (table : List (List Char × Pending))
    (hnd : (table.map Prod.fst).Nodup) :
    (∀ e ∈ (tickScan now ttl table).1, e.2.messages ≠ []) ∧
      (∀ u ∈ (tickScan now ttl table).2, ∀ e ∈ (tickScan now ttl table).1, e.1 ≠ u.1) ∧
      (∀ (t2 : List (List Char × Pending)) (sender msg : List Char) (now2 : Nat),
        ∃ p, (sender, p) ∈ recordMsg t2 sender msg now2 ∧ p.messages ≠ []) := by
  refine ⟨?_, ?_, ?_⟩
  · intro e he
    simp only [tickScan] at he
    have := (List.mem_filter.mp he).2
    simpa using this
  · intro u hu e he hkey
    simp only [tickScan] at hu he
    rcases List.mem_filterMap.mp hu with ⟨x, hx, hxu⟩
    rcases List.mem_map.mp hx with ⟨e0, he0, rfl⟩
    obtain ⟨hukey, hcleared⟩ := scanEntry_some now ttl e0 u hxu
    have hmem := (List.mem_filter.mp he).1
    have hne2 : e.2.messages ≠ [] := by simpa using (List.mem_filter.mp he).2
    rw [List.map_map] at hmem
    rcases List.mem_map.mp hmem with ⟨e1, he1, heq⟩
    have hkeys : e1.1 = e0.1 := by
      have h1 : e.1 = e1.1 := by
        rw [← heq]
        exact scanEntry_fst_key now ttl e1
      rw [← hukey, ← h1]
      exact hkey
    have he1e0 : e1 = e0 := List.inj_on_of_nodup_map hnd he1 he0 hkeys
    rw [he1e0] at heq
    apply hne2
    rw [← heq]
    exact hcleared
  · intro t2 sender msg now2
    induction t2 with
    | nil =>
      exact ⟨{ messages := [msg], lastActivity := now2 },
        by rw [recordMsg]; exact List.mem_cons_self _ _, by simp⟩
    | cons e rest ih =>
      by_cases hkey : e.1 = sender
      · refine ⟨{ messages := e.2.messages ++ [msg], lastActivity := now2 }, ?_, by simp⟩
        rw [recordMsg, if_pos hkey, hkey]
        exact List.mem_cons_self _ _
      · obtain ⟨p, hp, hpne⟩ := ih
        refine ⟨p, ?_, hpne⟩
        rw [recordMsg, if_neg hkey]
        exact List.mem_cons_of_mem e hp

theorem claim_C6_flush_removes_entry_witness :
    (∀ e ∈ (tickScan 1500 1000
        [(String.toList "alice",
          { messages := [String.toList "hi"], lastActivity := 0 })]).1,
      e.2.messages ≠ []) ∧
      (∀ u ∈ (tickScan 1500 1000
          [(String.toList "alice",
            { messages := [String.toList "hi"], lastActivity := 0 })]).2,
        ∀ e ∈ (tickScan 1500 1000
          [(String.toList "alice",
            { messages := [String.toList "hi"], lastActivity := 0 })]).1,
        e.1 ≠ u.1) ∧
      (∀ (t2 : List (List Char × Pending)) (sender msg : List Char) (now2 : Nat),
        ∃ p, (sender, p) ∈ recordMsg t2 sender msg now2 ∧ p.messages ≠ []) :=
  claim_C6_flush_removes_entry 1500 1000
    [(String.toList "alice", { messages := [String.toList "hi"], lastActivity := 0 })]
    (by decide)

end IrcRelay

